import Mathlib

/-!
# Verification of the `tbc` indexer's store and scheduler layers

A shallow embedding of the level-backed `tbcd` store
(`database/tbcd/level/level.go`) and of the header/block handling and
block-download scheduler of the `tbc` service (`service/tbc/tbc.go`).

Modelling conventions:

* LevelDB namespaces are finite maps from byte strings to values,
  represented as association lists (`assocGet`/`assocPut`/`assocDel`).
  LevelDB iterates a namespace in bytewise-lexicographic key order; this
  is modelled by sorting the association list by key before iterating.
* Byte strings are `List Nat`; a well-formed byte has value `< 256`.
  `uint64` values are `Nat` with explicit `< 2^64` bounds where they
  matter, and the Go `int64(uint64)` conversion is modelled by
  `int64OfUint64` with an explicit wrap at `2^63`.
* JSON round-tripping of record values (`json.Marshal`/`Unmarshal`)
  is modelled by storing the record itself as the namespace value.
* Go `panic` unwinds through the deferred `tx.Discard()` calls, so a
  panicking store call leaves the database unchanged; it is modelled as
  the error `DbErr.panicked`.
* Fallible operations return `Except DbErr`; an error return models the
  source's discard-the-transactions path, i.e. no namespace is changed.
-/

set_option linter.unusedVariables false

/-! ## Byte-string helpers -/

/-- Big-endian encoding of a `uint64`, as in `binary.BigEndian.PutUint64`
(`level.go`, `heightHashToKey`).  Each byte is reduced `% 256`, which is
exact for values `< 2^64`. -/
def beUint64 (n : Nat) : List Nat :=
  [n / 2 ^ 56 % 256, n / 2 ^ 48 % 256, n / 2 ^ 40 % 256, n / 2 ^ 32 % 256,
   n / 2 ^ 24 % 256, n / 2 ^ 16 % 256, n / 2 ^ 8 % 256, n % 256]

/-- Big-endian decoding, as in `binary.BigEndian.Uint64`
(`level.go`, `keyToHeightHash`). -/
def beDec (l : List Nat) : Nat :=
  l.foldl (fun acc b => acc * 256 + b) 0

/-- Strict bytewise-lexicographic order on byte strings (LevelDB's
default key comparator). -/
def lexLt : List Nat → List Nat → Bool
  | [], [] => false
  | [], _ :: _ => true
  | _ :: _, [] => false
  | x :: xs, y :: ys => x < y || (x == y && lexLt xs ys)

/-- Reflexive bytewise-lexicographic order on byte strings. -/
def lexLe : List Nat → List Nat → Bool
  | [], _ => true
  | _ :: _, [] => false
  | x :: xs, y :: ys => x < y || (x == y && lexLe xs ys)

theorem beUint64_length (n : Nat) : (beUint64 n).length = 8 := rfl

theorem beUint64_bytes_lt (n : Nat) : ∀ b ∈ beUint64 n, b < 256 := by
  intro b hb
  simp [beUint64] at hb
  rcases hb with h | h | h | h | h | h | h | h <;>
    simp [h, Nat.mod_lt]

theorem beDec_beUint64 (n : Nat) (h : n < 2 ^ 64) : beDec (beUint64 n) = n := by
  simp only [beDec, beUint64, List.foldl]
  omega

/-- `beDec` with an explicit accumulator, for monotonicity reasoning. -/
theorem beDec_foldl_lower (l : List Nat) : ∀ a : Nat,
    a * 256 ^ l.length ≤ l.foldl (fun acc b => acc * 256 + b) a := by
  induction l with
  | nil => intro a; simp
  | cons x xs ih =>
    intro a
    have h1 := ih (a * 256 + x)
    have h2 : a * 256 ^ (x :: xs).length ≤ (a * 256 + x) * 256 ^ xs.length := by
      have : a * 256 ≤ a * 256 + x := Nat.le_add_right _ _
      calc a * 256 ^ (xs.length + 1) = (a * 256) * 256 ^ xs.length := by ring
        _ ≤ (a * 256 + x) * 256 ^ xs.length :=
            Nat.mul_le_mul_right _ this
    simpa [List.foldl] using le_trans h2 h1

theorem beDec_foldl_upper (l : List Nat) (hv : ∀ b ∈ l, b < 256) : ∀ a : Nat,
    l.foldl (fun acc b => acc * 256 + b) a < (a + 1) * 256 ^ l.length := by
  induction l with
  | nil => intro a; simp
  | cons x xs ih =>
    intro a
    have hx : x < 256 := hv x (List.mem_cons_self x xs)
    have hxs : ∀ b ∈ xs, b < 256 := fun b hb => hv b (List.mem_cons_of_mem x hb)
    have h1 := ih hxs (a * 256 + x)
    have h2 : (a * 256 + x + 1) * 256 ^ xs.length ≤ (a + 1) * 256 ^ (x :: xs).length := by
      have : a * 256 + x + 1 ≤ (a + 1) * 256 := by omega
      calc (a * 256 + x + 1) * 256 ^ xs.length
          ≤ ((a + 1) * 256) * 256 ^ xs.length := Nat.mul_le_mul_right _ this
        _ = (a + 1) * 256 ^ (xs.length + 1) := by ring
    simpa [List.foldl] using lt_of_lt_of_le h1 h2

/-- On equal-length well-formed byte strings, strict lexicographic order
implies strict numeric order of the big-endian decodings. -/
theorem beDec_strictMono_aux (l1 l2 : List Nat) (hlen : l1.length = l2.length)
    (hlt : lexLt l1 l2 = true) (hv1 : ∀ b ∈ l1, b < 256) (hv2 : ∀ b ∈ l2, b < 256) :
    ∀ a : Nat, l1.foldl (fun acc b => acc * 256 + b) a <
      l2.foldl (fun acc b => acc * 256 + b) a := by
  induction l1 generalizing l2 with
  | nil =>
    cases l2 with
    | nil => simp [lexLt] at hlt
    | cons y ys => simp at hlen
  | cons x xs ih =>
    cases l2 with
    | nil => simp [lexLt] at hlt
    | cons y ys =>
      intro a
      simp only [lexLt, Bool.or_eq_true, Bool.and_eq_true, beq_iff_eq,
        decide_eq_true_eq] at hlt
      have hxs : ∀ b ∈ xs, b < 256 := fun b hb => hv1 b (List.mem_cons_of_mem x hb)
      have hys : ∀ b ∈ ys, b < 256 := fun b hb => hv2 b (List.mem_cons_of_mem y hb)
      have hlen' : xs.length = ys.length := by simpa using hlen
      rcases hlt with hxy | ⟨hxy, hrec⟩
      · have h1 := beDec_foldl_upper xs hxs (a * 256 + x)
        have h2 := beDec_foldl_lower ys (a * 256 + y)
        have h3 : (a * 256 + x + 1) * 256 ^ xs.length ≤ (a * 256 + y) * 256 ^ ys.length := by
          rw [hlen']
          exact Nat.mul_le_mul_right _ (by omega)
        simpa [List.foldl] using lt_of_lt_of_le h1 (le_trans h3 h2)
      · subst hxy
        simpa [List.foldl] using ih ys hlen' hrec hxs hys (a * 256 + x)

theorem beDec_strictMono (l1 l2 : List Nat) (hlen : l1.length = l2.length)
    (hlt : lexLt l1 l2 = true) (hv1 : ∀ b ∈ l1, b < 256) (hv2 : ∀ b ∈ l2, b < 256) :
    beDec l1 < beDec l2 :=
  beDec_strictMono_aux l1 l2 hlen hlt hv1 hv2 0

/-- Equal-length byte strings are lexicographically trichotomous. -/
theorem lexLt_trichotomy (l1 l2 : List Nat) (hlen : l1.length = l2.length) :
    l1 = l2 ∨ lexLt l1 l2 = true ∨ lexLt l2 l1 = true := by
  induction l1 generalizing l2 with
  | nil =>
    cases l2 with
    | nil => exact Or.inl rfl
    | cons y ys => simp at hlen
  | cons x xs ih =>
    cases l2 with
    | nil => simp at hlen
    | cons y ys =>
      have hlen' : xs.length = ys.length := by simpa using hlen
      rcases Nat.lt_trichotomy x y with hxy | hxy | hxy
      · exact Or.inr (Or.inl (by simp [lexLt, hxy]))
      · subst hxy
        rcases ih ys hlen' with h | h | h
        · exact Or.inl (by rw [h])
        · exact Or.inr (Or.inl (by simp [lexLt, h]))
        · exact Or.inr (Or.inr (by simp [lexLt, h]))
      · exact Or.inr (Or.inr (by simp [lexLt, hxy]))

theorem lexLe_total (l1 l2 : List Nat) :
    lexLe l1 l2 = true ∨ lexLe l2 l1 = true := by
  induction l1 generalizing l2 with
  | nil => exact Or.inl rfl
  | cons x xs ih =>
    cases l2 with
    | nil => exact Or.inr rfl
    | cons y ys =>
      rcases Nat.lt_trichotomy x y with hxy | hxy | hxy
      · exact Or.inl (by simp [lexLe, hxy])
      · subst hxy
        rcases ih ys with h | h
        · exact Or.inl (by simp [lexLe, h])
        · exact Or.inr (by simp [lexLe, h])
      · exact Or.inr (by simp [lexLe, hxy])

/-- Comparing equal-length prefixes dominates the lexicographic
comparison of the concatenations. -/
theorem lexLe_append_of_prefixes (a b u v : List Nat) (hlen : a.length = b.length)
    (h : lexLe (a ++ u) (b ++ v) = true) : lexLe a b = true := by
  induction a generalizing b with
  | nil => rfl
  | cons x xs ih =>
    cases b with
    | nil => simp at hlen
    | cons y ys =>
      have hlen' : xs.length = ys.length := by simpa using hlen
      simp only [List.cons_append, lexLe, Bool.or_eq_true, Bool.and_eq_true,
        beq_iff_eq, decide_eq_true_eq] at h ⊢
      rcases h with h | ⟨hxy, h⟩
      · exact Or.inl h
      · exact Or.inr ⟨hxy, ih ys hlen' h⟩

theorem lexLt_append (a b u v : List Nat) (hlen : a.length = b.length)
    (h : lexLt a b = true) : lexLt (a ++ u) (b ++ v) = true := by
  induction a generalizing b with
  | nil =>
    cases b with
    | nil => simp [lexLt] at h
    | cons y ys => simp at hlen
  | cons x xs ih =>
    cases b with
    | nil => simp [lexLt] at h
    | cons y ys =>
      have hlen' : xs.length = ys.length := by simpa using hlen
      simp only [lexLt, Bool.or_eq_true, Bool.and_eq_true, beq_iff_eq,
        decide_eq_true_eq] at h
      simp only [List.cons_append, lexLt, Bool.or_eq_true, Bool.and_eq_true,
        beq_iff_eq, decide_eq_true_eq]
      rcases h with h | ⟨hxy, h⟩
      · exact Or.inl h
      · exact Or.inr ⟨hxy, ih ys hlen' h⟩

theorem lexLe_of_eq (a b : List Nat) (h : a = b) : lexLe a b = true := by
  subst h
  induction a with
  | nil => rfl
  | cons x xs ih => simp [lexLe, ih]

/-- `lexLt` one way and `lexLe` the other way are incompatible. -/
theorem lexLt_lexLe_absurd (a b : List Nat) (hlt : lexLt b a = true)
    (hle : lexLe a b = true) : False := by
  induction a generalizing b with
  | nil => cases b <;> simp [lexLt] at hlt
  | cons x xs ih =>
    cases b with
    | nil => simp [lexLe] at hle
    | cons y ys =>
      simp only [lexLt, Bool.or_eq_true, Bool.and_eq_true, beq_iff_eq,
        decide_eq_true_eq] at hlt
      simp only [lexLe, Bool.or_eq_true, Bool.and_eq_true, beq_iff_eq,
        decide_eq_true_eq] at hle
      rcases hlt with h | ⟨hyx, h⟩ <;> rcases hle with h' | ⟨hxy, h'⟩ <;> try omega
      exact ih ys h h'

/-- On equal-length well-formed byte strings, `lexLe` implies numeric
order of the big-endian decodings. -/
theorem beDec_mono (l1 l2 : List Nat) (hlen : l1.length = l2.length)
    (hle : lexLe l1 l2 = true) (hv1 : ∀ b ∈ l1, b < 256) (hv2 : ∀ b ∈ l2, b < 256) :
    beDec l1 ≤ beDec l2 := by
  rcases lexLt_trichotomy l1 l2 hlen with h | h | h
  · exact le_of_eq (by rw [h])
  · exact le_of_lt (beDec_strictMono l1 l2 hlen h hv1 hv2)
  · exact absurd (lexLt_lexLe_absurd l1 l2 h hle) not_false

/-! ## Association-list maps (the LevelDB namespace model) -/

/-- First binding of `k`, as a LevelDB `Get`. -/
def assocGet {κ α : Type} [DecidableEq κ] (m : List (κ × α)) (k : κ) : Option α :=
  match m with
  | [] => none
  | (k', v) :: rest => if k' = k then some v else assocGet rest k

/-- Insert-or-replace, as a LevelDB `Put`. -/
def assocPut {κ α : Type} [DecidableEq κ] (m : List (κ × α)) (k : κ) (v : α) :
    List (κ × α) :=
  match m with
  | [] => [(k, v)]
  | (k', v') :: rest =>
    if k' = k then (k, v) :: rest else (k', v') :: assocPut rest k v

/-- Key removal, as a LevelDB `Delete` (deleting an absent key succeeds). -/
def assocDel {κ α : Type} [DecidableEq κ] (m : List (κ × α)) (k : κ) :
    List (κ × α) :=
  match m with
  | [] => []
  | (k', v') :: rest =>
    if k' = k then assocDel rest k else (k', v') :: assocDel rest k

/-- Key-presence test, as a LevelDB `Has`. -/
def assocHas {κ α : Type} [DecidableEq κ] (m : List (κ × α)) (k : κ) : Bool :=
  (assocGet m k).isSome

theorem assocGet_put_self {κ α : Type} [DecidableEq κ] (m : List (κ × α)) (k : κ) (v : α) :
    assocGet (assocPut m k v) k = some v := by
  induction m with
  | nil => simp [assocGet, assocPut]
  | cons kv rest ih =>
    obtain ⟨k', v'⟩ := kv
    by_cases h : k' = k <;> simp [assocGet, assocPut, h, ih]

theorem assocGet_put_other {κ α : Type} [DecidableEq κ] (m : List (κ × α))
    (k k' : κ) (v : α) (hne : k' ≠ k) :
    assocGet (assocPut m k v) k' = assocGet m k' := by
  have hne' : k ≠ k' := Ne.symm hne
  induction m with
  | nil => simp [assocGet, assocPut, hne']
  | cons kv rest ih =>
    obtain ⟨k0, v0⟩ := kv
    by_cases h : k0 = k
    · subst h
      simp [assocGet, assocPut, hne']
    · by_cases h' : k0 = k' <;> simp [assocGet, assocPut, h, h', ih, hne, hne']

theorem assocGet_del_self {κ α : Type} [DecidableEq κ] (m : List (κ × α)) (k : κ) :
    assocGet (assocDel m k) k = none := by
  induction m with
  | nil => simp [assocGet, assocDel]
  | cons kv rest ih =>
    obtain ⟨k', v'⟩ := kv
    by_cases h : k' = k <;> simp [assocGet, assocDel, h, ih]

theorem assocPut_length_of_absent {κ α : Type} [DecidableEq κ] (m : List (κ × α))
    (k : κ) (v : α) (h : assocGet m k = none) :
    (assocPut m k v).length = m.length + 1 := by
  induction m with
  | nil => simp [assocPut]
  | cons kv rest ih =>
    obtain ⟨k', v'⟩ := kv
    by_cases hk : k' = k
    · simp [assocGet, hk] at h
    · simp only [assocGet, hk, if_false] at h
      simp [assocPut, hk, ih h]

theorem assocDel_length_le {κ α : Type} [DecidableEq κ] (m : List (κ × α)) (k : κ) :
    (assocDel m k).length ≤ m.length := by
  induction m with
  | nil => simp [assocDel]
  | cons kv rest ih =>
    obtain ⟨k', v'⟩ := kv
    by_cases h : k' = k <;> simp [assocDel, h] <;> omega

/-- Application of a write batch: `leveldb.Batch` puts applied in order
by `tx.Write`. -/
def applyPuts {κ α : Type} [DecidableEq κ] (m : List (κ × α)) (kvs : List (κ × α)) :
    List (κ × α) :=
  kvs.foldl (fun acc kv => assocPut acc kv.1 kv.2) m

theorem assocGet_applyPuts_notMem {κ α : Type} [DecidableEq κ] (kvs : List (κ × α))
    (m : List (κ × α)) (k : κ) (h : k ∉ kvs.map Prod.fst) :
    assocGet (applyPuts m kvs) k = assocGet m k := by
  induction kvs generalizing m with
  | nil => rfl
  | cons kv rest ih =>
    obtain ⟨k0, v0⟩ := kv
    simp only [List.map_cons, List.mem_cons] at h
    push_neg at h
    simp only [applyPuts, List.foldl_cons]
    rw [show List.foldl (fun acc kv => assocPut acc kv.1 kv.2)
        (assocPut m k0 v0) rest = applyPuts (assocPut m k0 v0) rest from rfl,
      ih _ h.2, assocGet_put_other _ _ _ _ h.1]

theorem assocGet_applyPuts_mem {κ α : Type} [DecidableEq κ] (kvs : List (κ × α))
    (m : List (κ × α)) (k : κ) (v : α) (hnd : (kvs.map Prod.fst).Nodup)
    (hmem : (k, v) ∈ kvs) :
    assocGet (applyPuts m kvs) k = some v := by
  induction kvs generalizing m with
  | nil => simp at hmem
  | cons kv rest ih =>
    simp only [List.map_cons, List.nodup_cons] at hnd
    simp only [applyPuts, List.foldl_cons]
    rcases List.mem_cons.mp hmem with heq | hmem'
    · subst heq
      rw [show List.foldl (fun acc kv => assocPut acc kv.1 kv.2)
          (assocPut m k v) rest = applyPuts (assocPut m k v) rest from rfl,
        assocGet_applyPuts_notMem rest _ k (by simpa using hnd.1),
        assocGet_put_self]
    · exact ih _ hnd.2 hmem'

/-! ## The `tbcd` data model (`database/tbcd/database.go`) -/

/-- `tbcd.BlockHeader`: hash, height (`uint64`), raw 80-byte header.
The `CreatedAt` timestamp set by `BlockHeadersInsert` is real time and
is omitted from the model. -/
structure BlockHeader where
  hash : List Nat
  height : Nat
  header : List Nat
deriving DecidableEq, Repr

/-- `tbcd.Block`: hash and raw serialised block body. -/
structure Block where
  hash : List Nat
  block : List Nat
deriving DecidableEq, Repr

/-- `tbcd.BlockIdentifier`: height and hash. -/
structure BlockIdentifier where
  height : Nat
  hash : List Nat
deriving DecidableEq, Repr

/-- `tbcd.Peer` (timestamps omitted as real time). -/
structure Peer where
  host : String
  port : String
deriving DecidableEq, Repr

/-- Error outcomes of the level store operations.  `panicked` models a Go
`panic` (the deferred `tx.Discard()` calls leave the namespaces
unchanged; the process then aborts). -/
inductive DbErr where
  | notFound
  | duplicate
  | emptyInsert
  | panicked
  | generic
deriving DecidableEq, Repr

/-- The three LevelDB namespaces of the `tbcd` level backend
(`BlockHeadersDB`, `BlocksMissingDB`, `BlocksDB`).  Values are the
records whose JSON encodings the source stores. -/
structure LdbState where
  blockHeaders : List (List Nat × BlockHeader)
  blocksMissing : List (List Nat × List Nat)
  blocks : List (List Nat × Block)
deriving DecidableEq, Repr

/-- The `"last"` sentinel key (`bhsLastKey`), as UTF-8 bytes. -/
def bhsLastKey : List Nat := [108, 97, 115, 116]

/-- The key construction of `heightHashToKey`: 8 bytes of big-endian
height, one `0x00` byte, then the hash. -/
def hhKey (height : Nat) (hash : List Nat) : List Nat :=
  beUint64 height ++ [0] ++ hash

/-- `heightHashToKey` (`level.go`): panics unless the hash is exactly
32 bytes (`chainhash.HashSize`). -/
def heightHashToKey (height : Nat) (hash : List Nat) : Except DbErr (List Nat) :=
  if hash.length = 32 then .ok (hhKey height hash) else .error .panicked

/-- `keyToHeightHash` (`level.go`): panics unless the key is exactly
`8 + 1 + 32` bytes; decodes the big-endian height from bytes `0..8` and
copies the hash from byte 9 on. -/
def keyToHeightHash (key : List Nat) : Except DbErr (Nat × List Nat) :=
  if key.length = 8 + 1 + 32 then .ok (beDec (key.take 8), key.drop 9)
  else .error .panicked

/-- `(*ldb).BlockHeaderByHash`: point lookup in the BlockHeaders
namespace; `NotFoundError` when absent. -/
def BlockHeaderByHash (st : LdbState) (hash : List Nat) : Except DbErr BlockHeader :=
  match assocGet st.blockHeaders hash with
  | none => .error .notFound
  | some bh => .ok bh

/-- `(*ldb).BlockHeadersBest`: reads the `"last"` sentinel; an absent
sentinel yields the empty list, not an error. -/
def BlockHeadersBest (st : LdbState) : Except DbErr (List BlockHeader) :=
  match assocGet st.blockHeaders bhsLastKey with
  | none => .ok []
  | some bh => .ok [bh]

/-- The per-hash header puts of `BlockHeadersInsert`'s loop
(`bhsBatch.Put(bhs[k].Hash, bhj)` in batch order). -/
def bhsPuts (bhs : List BlockHeader) : List (List Nat × BlockHeader) :=
  bhs.map (fun b => (b.hash, b))

/-- The missing-block puts of `BlockHeadersInsert`'s loop: one empty
value per entry with height ≠ 0, keyed by `heightHashToKey`
(`bmBatch.Put(heightHashToKey(…), []byte{})` in batch order). -/
def bmPuts (bhs : List BlockHeader) : List (List Nat × List Nat) :=
  (bhs.filter (fun b => decide (b.height ≠ 0))).map (fun b => (hhKey b.height b.hash, []))

/-- `(*ldb).BlockHeadersInsert`: rejects an empty batch; returns
`Duplicate` when the first batch hash is already a BlockHeaders key;
otherwise stages one header put per entry plus the `"last"` sentinel,
and one missing-block put per entry with height ≠ 0, and commits both
batches.  An entry with height ≠ 0 and a non-32-byte hash makes
`heightHashToKey` panic before anything is written. -/
def BlockHeadersInsert (st : LdbState) (bhs : List BlockHeader) : Except DbErr LdbState :=
  match bhs with
  | [] => .error .emptyInsert
  | b0 :: rest =>
    if assocHas st.blockHeaders b0.hash then .error .duplicate
    else if (b0 :: rest).all (fun b => b.height = 0 || b.hash.length = 32) then
      .ok
        { blockHeaders :=
            assocPut (applyPuts st.blockHeaders (bhsPuts (b0 :: rest)))
              bhsLastKey (rest.getLastD b0)
          blocksMissing := applyPuts st.blocksMissing (bmPuts (b0 :: rest))
          blocks := st.blocks }
    else .error .panicked

/-- Insertion sort of namespace entries by bytewise key order: LevelDB's
iterator walks a namespace in ascending key order, so iterating the
association-list model means sorting it by key first. -/
def insEntry {α : Type} (e : List Nat × α) : List (List Nat × α) → List (List Nat × α)
  | [] => [e]
  | f :: rest => if lexLe e.1 f.1 then e :: f :: rest else f :: insEntry e rest

/-- Sort a namespace's entries into LevelDB iteration order. -/
def sortEntries {α : Type} : List (List Nat × α) → List (List Nat × α)
  | [] => []
  | e :: rest => insEntry e (sortEntries rest)

/-- The iterator loop of `(*ldb).BlocksMissing`: decode each key with
`keyToHeightHash`, append, increment `x`, and break once `x >= count`.
Note the break test runs after the append, so the first entry is always
taken, even when `count <= 0`. -/
def bmLoop : List (List Nat × List Nat) → Int → Int → Except DbErr (List BlockIdentifier)
  | [], _, _ => .ok []
  | (k, _) :: rest, x, count =>
    match keyToHeightHash k with
    | .error e => .error e
    | .ok (h, hs) =>
      if x + 1 ≥ count then .ok [⟨h, hs⟩]
      else
        match bmLoop rest (x + 1) count with
        | .error e => .error e
        | .ok bis => .ok (⟨h, hs⟩ :: bis)

/-- `(*ldb).BlocksMissing`: `make([]tbcd.BlockIdentifier, 0, count)`
panics for a negative `count`; otherwise iterate the BlocksMissing
namespace in key order through `bmLoop`. -/
def BlocksMissing (st : LdbState) (count : Int) : Except DbErr (List BlockIdentifier) :=
  if count < 0 then .error .panicked
  else bmLoop (sortEntries st.blocksMissing) 0 count

/-- Go's `int64(x)` conversion of a `uint64`: wraps at `2^63`. -/
def int64OfUint64 (n : Nat) : Int :=
  if n % 2 ^ 64 < 2 ^ 63 then ((n % 2 ^ 64 : Nat) : Int)
  else ((n % 2 ^ 64 : Nat) : Int) - 2 ^ 64

/-- `(*ldb).BlockInsert`: resolves the block's header (NotFound when
absent), rebuilds the missing-block key from the stored record (panic
if the stored hash is not 32 bytes), deletes it from BlocksMissing
(absence is non-fatal: the source only logs `leveldb.ErrNotFound`),
writes the block record keyed by its hash, and returns the header's
height as `int64`. -/
def BlockInsert (st : LdbState) (b : Block) : Except DbErr (Int × LdbState) :=
  match assocGet st.blockHeaders b.hash with
  | none => .error .notFound
  | some bh =>
    if bh.hash.length = 32 then
      .ok (int64OfUint64 bh.height,
        { blockHeaders := st.blockHeaders
          blocksMissing := assocDel st.blocksMissing (hhKey bh.height bh.hash)
          blocks := assocPut st.blocks b.hash b })
    else .error .panicked

/-- `(*ldb).PeersInsert`: the level backend is a stub that always
returns the error `fmt.Errorf("PeersInsert")` and writes nothing. -/
def PeersInsert (st : LdbState) (peers : List Peer) : Except DbErr LdbState :=
  .error .generic

/-- `(*ldb).PeerDelete`: stub that always returns the error
`fmt.Errorf("PeerDelete")` and deletes nothing. -/
def PeerDelete (st : LdbState) (host port : String) : Except DbErr LdbState :=
  .error .generic

/-- `(*ldb).PeersRandom`: stub that always succeeds with the empty
slice ("always return nothing for now to DNS seed"). -/
def PeersRandom (st : LdbState) (count : Int) : Except DbErr (List Peer) :=
  .ok []

/-! ## The `tbc` service (`service/tbc/tbc.go`) -/

/-- A `wire.BlockHeader` as far as `handleHeaders` inspects it: the
`PrevBlock` hash plus the remaining serialised fields, which
`handleHeaders` only passes through `BlockHash()` and `Serialize`. -/
structure WireHeader where
  prevBlock : List Nat
  rest : List Nat
deriving DecidableEq, Repr

/-- The `btcd` wire primitives `handleHeaders` relies on:
`(*wire.BlockHeader).BlockHash()`, `header2Bytes`/`h2b` and
`bytes2Header`.  They are cryptographic/codec functions external to
this repository, so the embedding abstracts over them. -/
structure WireCodec where
  bHash : WireHeader → List Nat
  ser : WireHeader → List Nat
  deser : List Nat → Option WireHeader

/-- The header walk of `handleHeaders`: starting from the stored parent
`pbh` at height `height - 1`, verify `msg.Headers[k].PrevBlock` against
the previous header's block hash, and build the `tbcd.BlockHeader`
insert list with consecutive heights.  Returns `none` on the first
mismatch ("cannot connect").  The `height` counter is a `uint64` in the
source, so its per-entry increment wraps modulo `2^64`. -/
def buildHeaders (c : WireCodec) (pbh : WireHeader) (height : Nat) :
    List WireHeader → Option (List BlockHeader)
  | [] => some []
  | h :: hs =>
    if h.prevBlock = c.bHash pbh then
      match buildHeaders c h ((height + 1) % 2 ^ 64) hs with
      | some built => some (⟨c.bHash h, height, c.ser h⟩ :: built)
      | none => none
    else none

/-- The batch-connectivity property `handleHeaders` enforces: the first
header's parent is `pbh`, and each later header's `PrevBlock` is the
block hash of its predecessor in the batch. -/
def chainOk (c : WireCodec) (pbh : WireHeader) : List WireHeader → Prop
  | [] => True
  | h :: hs => h.prevBlock = c.bHash pbh ∧ chainOk c h hs

instance (c : WireCodec) (pbh : WireHeader) (hs : List WireHeader) :
    Decidable (chainOk c pbh hs) := by
  induction hs generalizing pbh with
  | nil => exact isTrue trivial
  | cons h t ih =>
    have := ih h
    exact instDecidableAnd

/-- Outcome labels for `handleHeaders` (the handler itself only logs
and returns; the paired state below records its store effect). -/
inductive HandleOutcome where
  | emptyMsg
  | noParent
  | badParentHeader
  | cannotConnect
  | insertFailed (e : DbErr)
  | inserted (headers : List BlockHeader)
deriving DecidableEq, Repr

/-- `(*Server).handleHeaders`: an empty message only triggers a cache
check; otherwise look up the first header's parent (drop the batch when
absent), deserialise it, walk/validate the batch assigning
`height = parent.height + 1 + i` in `uint64` arithmetic (the
`height := dbpbh.Height + 1` computation wraps modulo `2^64`), and call
`BlockHeadersInsert` only if the whole batch connects.  The returned
state is the store after the call: unchanged on every abort path.  (The
follow-up `getheaders` request on success is network I/O, outside the
store model.) -/
def handleHeaders (c : WireCodec) (st : LdbState) (msgHeaders : List WireHeader) :
    LdbState × HandleOutcome :=
  match msgHeaders with
  | [] => (st, .emptyMsg)
  | h0 :: hs =>
    match BlockHeaderByHash st h0.prevBlock with
    | .error _ => (st, .noParent)
    | .ok dbpbh =>
      match c.deser dbpbh.header with
      | none => (st, .badParentHeader)
      | some pbh =>
        match buildHeaders c pbh ((dbpbh.height + 1) % 2 ^ 64) (h0 :: hs) with
        | none => (st, .cannotConnect)
        | some headers =>
          match BlockHeadersInsert st headers with
          | .error e => (st, .insertFailed e)
          | .ok st' => (st', .inserted headers)

/-- `blockPeer` (`tbc.go`): expiry deadline and owning peer of an
outstanding block download.  Time is modelled as a `Nat` passed in for
`time.Now()`. -/
structure BlockPeer where
  expire : Nat
  peer : String
deriving DecidableEq, Repr

/-- The scheduler-relevant fields of `tbc.Server`: the active peer map
`s.peers` (address ↦ connected, i.e. `conn != nil`) and the pending
block-download map `s.blocks` (hash ↦ `blockPeer`).  All operations on
them run under `s.mtx`. -/
structure SchedState where
  peers : List (String × Bool)
  blocks : List (List Nat × BlockPeer)
deriving DecidableEq, Repr

/-- `defaultPendingBlocks` (`tbc.go`): the pending-cache bound. -/
def defaultPendingBlocks : Nat := 128

/-- Scheduler error signals (`errCacheFull` etc. in `tbc.go`). -/
inductive SchedErr where
  | cacheFull
  | noPeers
  | alreadyCached
  | expiredPeer
deriving DecidableEq, Repr

/-- `(*Server).blockPeerAdd`: refuse unknown peers and already-cached
hashes; otherwise record the download with a 37-second expiry. -/
def blockPeerAdd (st : SchedState) (now : Nat) (hash : List Nat) (peerAddr : String) :
    Except SchedErr SchedState :=
  if (assocGet st.peers peerAddr).isNone then .error .expiredPeer
  else if (assocGet st.blocks hash).isSome then .error .alreadyCached
  else .ok { st with blocks := assocPut st.blocks hash ⟨now + 37, peerAddr⟩ }

/-- `(*Server).blockPeerExpire`: drop every entry with
`now.After(expire)` and report the remaining cache occupancy.  (Closing
the slow owning peer's connection is network I/O, outside the map
model.) -/
def blockPeerExpire (st : SchedState) (now : Nat) : SchedState × Nat :=
  let remaining := st.blocks.filter (fun kv => !(now > kv.2.expire : Bool))
  ({ st with blocks := remaining }, remaining.length)

/-- The `delete(s.blocks, bhs)` step of `(*Server).handleBlock`: the
block, inserted or not, leaves the pending cache. -/
def handleBlockRemove (st : SchedState) (hash : List Nat) : SchedState :=
  { st with blocks := assocDel st.blocks hash }

/-- The peer-selection loop of `(*Server).randPeerWrite`: skip
unconnected peers and hashes `blockPeerAdd` refuses; stop at the first
peer that accepts the download.  (Go map iteration order is arbitrary;
the model fixes the list order, which the cache-size accounting never
depends on.) -/
def randPeerWriteLoop (st : SchedState) (now : Nat) (hash : List Nat) :
    List (String × Bool) → Except SchedErr (SchedState × String)
  | [] => .error .noPeers
  | (addr, conn) :: rest =>
    if conn then
      match blockPeerAdd st now hash addr with
      | .error _ => randPeerWriteLoop st now hash rest
      | .ok st' => .ok (st', addr)
    else randPeerWriteLoop st now hash rest

/-- `(*Server).randPeerWrite`: refuse with `errCacheFull` when the
pending map already holds `defaultPendingBlocks` entries, otherwise try
to hand the download to some connected peer.  (The final
`p.write(msg)` is network I/O; its failure does not touch the maps.) -/
def randPeerWrite (st : SchedState) (now : Nat) (hash : List Nat) :
    Except SchedErr (SchedState × String) :=
  if st.blocks.length ≥ defaultPendingBlocks then .error .cacheFull
  else randPeerWriteLoop st now hash st.peers

/-- One mutation of the scheduler maps, as performed by the running
service: a successful `randPeerWrite` (the only writer of `s.blocks`
entries), an expiry sweep, the `handleBlock` deletion, and the peer-map
updates `peerAdd`/`peerDelete`. -/
inductive SchedStep : SchedState → SchedState → Prop
  | write (st : SchedState) (now : Nat) (hash : List Nat) (st' : SchedState)
      (pk : String) (h : randPeerWrite st now hash = .ok (st', pk)) :
      SchedStep st st'
  | expire (st : SchedState) (now : Nat) :
      SchedStep st (blockPeerExpire st now).1
  | blockRemove (st : SchedState) (hash : List Nat) :
      SchedStep st (handleBlockRemove st hash)
  | peerAdd (st : SchedState) (addr : String) (conn : Bool) :
      SchedStep st { st with peers := assocPut st.peers addr conn }
  | peerDelete (st : SchedState) (addr : String) :
      SchedStep st { st with peers := assocDel st.peers addr }

/-- States of the scheduler maps reachable from the `NewServer` initial
state (both maps empty) under the service's mutations. -/
inductive SchedReachable : SchedState → Prop
  | init : SchedReachable ⟨[], []⟩
  | step {st st' : SchedState} (h : SchedReachable st) (hs : SchedStep st st') :
      SchedReachable st'

/-! ## Key-layout lemmas -/

theorem hhKey_length (h : Nat) (b : List Nat) (hb : b.length = 32) :
    (hhKey h b).length = 41 := by
  simp [hhKey, beUint64, hb]

theorem hhKey_take8 (h : Nat) (b : List Nat) :
    (hhKey h b).take 8 = beUint64 h := by
  simp [hhKey, beUint64]

theorem hhKey_drop9 (h : Nat) (b : List Nat) :
    (hhKey h b).drop 9 = b := by
  simp [hhKey, beUint64]

theorem hhKey_getElem8 (h : Nat) (b : List Nat) :
    (hhKey h b)[8]? = some 0 := by
  simp [hhKey, beUint64]

/-- The first 8 key bytes determine the height: equal keys of equal
heights-in-range come from equal heights. -/
theorem hhKey_height_inj (h1 h2 : Nat) (b1 b2 : List Nat)
    (hh1 : h1 < 2 ^ 64) (hh2 : h2 < 2 ^ 64)
    (heq : hhKey h1 b1 = hhKey h2 b2) : h1 = h2 := by
  have hpre9 : beUint64 h1 ++ [0] = beUint64 h2 ++ [0] :=
    (List.append_inj heq (by simp [beUint64])).1
  have hpre : beUint64 h1 = beUint64 h2 :=
    (List.append_inj hpre9 (by simp [beUint64])).1
  have := beDec_beUint64 h1 hh1
  rw [hpre, beDec_beUint64 h2 hh2] at this
  omega

/-! ## Claim theorems -/

/-- C10: for every `uint64` height `h` and 32-byte hash `b`,
`keyToHeightHash` inverts `heightHashToKey`, the key is 41 bytes long,
and its byte at index 8 is the `0x00` separator. -/
theorem c10_heightHashToKey_roundtrip (h : Nat) (b : List Nat)
    (hh : h < 2 ^ 64) (hb : b.length = 32) :
    heightHashToKey h b = .ok (hhKey h b) ∧
    keyToHeightHash (hhKey h b) = .ok (h, b) ∧
    (hhKey h b).length = 41 ∧
    (hhKey h b)[8]? = some 0 := by
  refine ⟨by simp [heightHashToKey, hb], ?_, hhKey_length h b hb, hhKey_getElem8 h b⟩
  rw [keyToHeightHash, if_pos (by rw [hhKey_length h b hb]),
    hhKey_take8, hhKey_drop9, beDec_beUint64 h hh]

/-- Witness for C10 at height 5 and the all-sevens hash. -/
theorem c10_witness :
    heightHashToKey 5 (List.replicate 32 7) = .ok (hhKey 5 (List.replicate 32 7)) ∧
    keyToHeightHash (hhKey 5 (List.replicate 32 7)) = .ok (5, List.replicate 32 7) ∧
    (hhKey 5 (List.replicate 32 7)).length = 41 ∧
    (hhKey 5 (List.replicate 32 7))[8]? = some 0 :=
  c10_heightHashToKey_roundtrip 5 (List.replicate 32 7) (by decide) (by decide)

/-- C5: `BlockInsert` on a block whose hash has no BlockHeader record
returns `NotFound`; the error path discards both open transactions, so
no MissingBlock entry is deleted and no block body is written. -/
theorem c5_blockInsert_notFound (st : LdbState) (b : Block)
    (h : assocGet st.blockHeaders b.hash = none) :
    BlockInsert st b = .error .notFound := by
  simp [BlockInsert, h]

/-- Witness for C5: inserting into the empty store. -/
theorem c5_witness :
    BlockInsert ⟨[], [], []⟩ ⟨List.replicate 32 1, [1, 2]⟩ = .error .notFound :=
  c5_blockInsert_notFound ⟨[], [], []⟩ ⟨List.replicate 32 1, [1, 2]⟩ (by decide)

/-- C9 counterexample: `PeersInsert` does not upsert-and-succeed — the
level backend returns an error for every batch, here a concrete
one-peer batch against the empty store. -/
theorem c9_counterexample :
    PeersInsert ⟨[], [], []⟩ [⟨"10.0.0.1", "8333"⟩] = .error .generic := rfl

/-- C9 (amended): in the level backend the peer-store operations are
stubs: `PeersInsert` and `PeerDelete` always return an error and write
nothing, and `PeersRandom` always succeeds with the empty list (so it
trivially returns "up to n" peers, but never any stored peer). -/
theorem c9_peer_ops_stubbed :
    (∀ (st : LdbState) (peers : List Peer), PeersInsert st peers = .error .generic) ∧
    (∀ (st : LdbState) (host port : String), PeerDelete st host port = .error .generic) ∧
    (∀ (st : LdbState) (n : Int), PeersRandom st n = .ok []) :=
  ⟨fun _ _ => rfl, fun _ _ _ => rfl, fun _ _ => rfl⟩

/-- C3: for a block whose hash has a stored BlockHeader record at
height `H` (instantiable `int64`, i.e. `H < 2^63`), `BlockInsert`
returns `H`, deletes the MissingBlock key `be_u64(H) ‖ 0x00 ‖ hash`
(absence of that key is non-fatal: no presence hypothesis is needed),
and stores the block record under its hash; the BlockHeaders namespace
is untouched. -/
theorem c3_blockInsert_clears_missing (st : LdbState) (b : Block) (bh : BlockHeader)
    (H : Nat)
    (hget : assocGet st.blockHeaders b.hash = some bh)
    (hhash : bh.hash = b.hash)
    (hlen : b.hash.length = 32)
    (hH : bh.height = H)
    (h63 : H < 2 ^ 63) :
    BlockInsert st b = .ok ((H : Int),
      { blockHeaders := st.blockHeaders
        blocksMissing := assocDel st.blocksMissing (hhKey H b.hash)
        blocks := assocPut st.blocks b.hash b }) ∧
    assocGet (assocDel st.blocksMissing (hhKey H b.hash)) (hhKey H b.hash) = none ∧
    assocGet (assocPut st.blocks b.hash b) b.hash = some b := by
  have hm : H % 2 ^ 64 = H := Nat.mod_eq_of_lt (by omega)
  refine ⟨?_, assocGet_del_self _ _, assocGet_put_self _ _ _⟩
  simp [BlockInsert, hget, hhash, hlen, hH, int64OfUint64, hm, h63]
  omega

/-- Witness for C3: a store holding one header at height 7 with its
missing-block marker; inserting the matching block returns 7, clears
the marker, and stores the body. -/
theorem c3_witness :
    BlockInsert
      ⟨[(List.replicate 32 3, ⟨List.replicate 32 3, 7, [4]⟩)],
       [(hhKey 7 (List.replicate 32 3), ([] : List Nat))], []⟩
      ⟨List.replicate 32 3, [1]⟩ = .ok ((7 : Int),
      { blockHeaders := [(List.replicate 32 3, ⟨List.replicate 32 3, 7, [4]⟩)]
        blocksMissing := assocDel [(hhKey 7 (List.replicate 32 3), ([] : List Nat))]
          (hhKey 7 (List.replicate 32 3))
        blocks := assocPut ([] : List (List Nat × Block)) (List.replicate 32 3)
          ⟨List.replicate 32 3, [1]⟩ }) ∧
    assocGet (assocDel [(hhKey 7 (List.replicate 32 3), ([] : List Nat))]
      (hhKey 7 (List.replicate 32 3))) (hhKey 7 (List.replicate 32 3)) = none ∧
    assocGet (assocPut ([] : List (List Nat × Block)) (List.replicate 32 3)
      (⟨List.replicate 32 3, [1]⟩ : Block))
      (List.replicate 32 3) = some ⟨List.replicate 32 3, [1]⟩ :=
  c3_blockInsert_clears_missing
    ⟨[(List.replicate 32 3, ⟨List.replicate 32 3, 7, [4]⟩)],
     [(hhKey 7 (List.replicate 32 3), ([] : List Nat))], []⟩
    ⟨List.replicate 32 3, [1]⟩ ⟨List.replicate 32 3, 7, [4]⟩ 7
    (by decide) rfl (by decide) rfl (by decide)

theorem assocGet_applyPuts_isSome {κ α : Type} [DecidableEq κ] (kvs : List (κ × α))
    (m : List (κ × α)) (k : κ) (h : k ∈ kvs.map Prod.fst) :
    (assocGet (applyPuts m kvs) k).isSome = true := by
  induction kvs generalizing m with
  | nil => simp at h
  | cons kv rest ih =>
    obtain ⟨k0, v0⟩ := kv
    simp only [applyPuts, List.foldl_cons]
    rw [show List.foldl (fun acc kv => assocPut acc kv.1 kv.2)
        (assocPut m k0 v0) rest = applyPuts (assocPut m k0 v0) rest from rfl]
    by_cases hk : k ∈ rest.map Prod.fst
    · exact ih _ hk
    · have hk0 : k = k0 := by
        simp only [List.map_cons, List.mem_cons] at h
        tauto
      subst hk0
      rw [assocGet_applyPuts_notMem rest _ k hk, assocGet_put_self]
      rfl

/-- The staged writes of a successful `BlockHeadersInsert`, as a predicate
on the result: used to keep the success-path equations readable. -/
theorem blockHeadersInsert_ok (st : LdbState) (b0 : BlockHeader) (rest : List BlockHeader)
    (hfresh : assocHas st.blockHeaders b0.hash = false)
    (hok : ∀ b ∈ b0 :: rest, b.height = 0 ∨ b.hash.length = 32) :
    BlockHeadersInsert st (b0 :: rest) = .ok
      { blockHeaders :=
          assocPut (applyPuts st.blockHeaders (bhsPuts (b0 :: rest)))
            bhsLastKey (rest.getLastD b0)
        blocksMissing := applyPuts st.blocksMissing (bmPuts (b0 :: rest))
        blocks := st.blocks } := by
  have hall : (b0 :: rest).all (fun b => b.height = 0 || b.hash.length = 32) = true := by
    rw [List.all_eq_true]
    intro b hb
    rcases hok b hb with h | h <;> simp [h]
  simp [BlockHeadersInsert, hfresh, hall]

/-- C4: inserting the same non-empty batch twice leaves the store as
after one insertion: the first call succeeds, and the second returns
`Duplicate` before staging any write (the first batch hash is by then a
BlockHeaders key), so its two open transactions are discarded with both
batches empty and no namespace changes. -/
theorem c4_insert_idempotent (st : LdbState) (b0 : BlockHeader) (rest : List BlockHeader)
    (hok : ∀ b ∈ b0 :: rest, b.height = 0 ∨ b.hash.length = 32)
    (hfresh : assocHas st.blockHeaders b0.hash = false) :
    ∃ st', BlockHeadersInsert st (b0 :: rest) = .ok st' ∧
      BlockHeadersInsert st' (b0 :: rest) = .error .duplicate := by
  refine ⟨_, blockHeadersInsert_ok st b0 rest hfresh hok, ?_⟩
  have hhas : assocHas
      (assocPut (applyPuts st.blockHeaders (bhsPuts (b0 :: rest)))
        bhsLastKey (rest.getLastD b0)) b0.hash = true := by
    by_cases hbl : b0.hash = bhsLastKey
    · rw [assocHas, hbl, assocGet_put_self]
      rfl
    · rw [assocHas, assocGet_put_other _ _ _ _ hbl]
      exact assocGet_applyPuts_isSome _ _ _ (by simp [bhsPuts])
  simp only [BlockHeadersInsert, hhas]
  rfl

/-- Witness for C4: a two-header batch against the empty store. -/
theorem c4_witness :
    ∃ st', BlockHeadersInsert ⟨[], [], []⟩
        [⟨List.replicate 32 1, 0, [9]⟩, ⟨List.replicate 32 2, 1, [8]⟩] = .ok st' ∧
      BlockHeadersInsert st'
        [⟨List.replicate 32 1, 0, [9]⟩, ⟨List.replicate 32 2, 1, [8]⟩] =
        .error .duplicate :=
  c4_insert_idempotent ⟨[], [], []⟩ ⟨List.replicate 32 1, 0, [9]⟩
    [⟨List.replicate 32 2, 1, [8]⟩] (by decide) (by decide)

theorem bhsPuts_keys (bhs : List BlockHeader) :
    (bhsPuts bhs).map Prod.fst = bhs.map BlockHeader.hash := by
  simp [bhsPuts]

theorem bmPuts_keys (bhs : List BlockHeader) :
    (bmPuts bhs).map Prod.fst =
      (bhs.filter (fun b => decide (b.height ≠ 0))).map (fun b => hhKey b.height b.hash) := by
  simp [bmPuts]

theorem bmPuts_keys_nodup (bhs : List BlockHeader)
    (hnd : (bhs.map BlockHeader.hash).Nodup) :
    ((bmPuts bhs).map Prod.fst).Nodup := by
  rw [bmPuts_keys]
  have h1 : ((bhs.filter (fun b => decide (b.height ≠ 0))).map BlockHeader.hash).Nodup :=
    hnd.sublist ((List.filter_sublist bhs).map BlockHeader.hash)
  have h2 : (((bhs.filter (fun b => decide (b.height ≠ 0))).map
      (fun b => hhKey b.height b.hash)).map (fun k => k.drop 9)).Nodup := by
    rw [List.map_map]
    simpa [Function.comp, hhKey_drop9] using h1
  exact h2.of_map _

/-- A 32-byte hash is never the 4-byte `"last"` sentinel key, so the
per-hash header puts and the sentinel put never collide. -/
theorem hash32_ne_lastKey (b : List Nat) (hb : b.length = 32) : b ≠ bhsLastKey := by
  intro he
  rw [he] at hb
  simp [bhsLastKey] at hb

/-- C1: for a non-empty batch of 32-byte-hash headers with distinct
hashes and `uint64` heights whose first hash is not yet stored,
`BlockHeadersInsert` succeeds and (a) stores each entry's record under
its hash, (b) stores one empty-valued MissingBlock record under
`be_u64(height) ‖ 0x00 ‖ hash` for each entry of height > 0, (c) writes
no MissingBlock record for height-0 entries (their key maps to the same
value as before), (d) sets the `"last"` sentinel to the final header
`rest.getLastD b0` of the batch `b0 :: rest`, so that (e)
`BlockHeadersBest` afterwards returns exactly that final header. -/
theorem c1_blockHeadersInsert (st : LdbState) (b0 : BlockHeader) (rest : List BlockHeader)
    (hlen : ∀ b ∈ b0 :: rest, b.hash.length = 32)
    (h64 : ∀ b ∈ b0 :: rest, b.height < 2 ^ 64)
    (hnd : ((b0 :: rest).map BlockHeader.hash).Nodup)
    (hfresh : assocHas st.blockHeaders b0.hash = false) :
    ∃ st', BlockHeadersInsert st (b0 :: rest) = .ok st' ∧
      (∀ b ∈ b0 :: rest, assocGet st'.blockHeaders b.hash = some b) ∧
      (∀ b ∈ b0 :: rest, b.height ≠ 0 →
        assocGet st'.blocksMissing (hhKey b.height b.hash) = some []) ∧
      (∀ b ∈ b0 :: rest, b.height = 0 →
        assocGet st'.blocksMissing (hhKey 0 b.hash) =
          assocGet st.blocksMissing (hhKey 0 b.hash)) ∧
      assocGet st'.blockHeaders bhsLastKey = some (rest.getLastD b0) ∧
      BlockHeadersBest st' = .ok [rest.getLastD b0] := by
  refine ⟨_, blockHeadersInsert_ok st b0 rest hfresh
    (fun b hb => Or.inr (hlen b hb)), ?_, ?_, ?_, ?_, ?_⟩
  · -- (a) each entry is stored under its hash
    intro b hb
    rw [assocGet_put_other _ _ _ _ (hash32_ne_lastKey b.hash (hlen b hb))]
    exact assocGet_applyPuts_mem _ _ _ _ (by rw [bhsPuts_keys]; exact hnd)
      (List.mem_map_of_mem (fun b => (b.hash, b)) hb)
  · -- (b) one MissingBlock record per entry of height > 0
    intro b hb hz
    have hf : b ∈ (b0 :: rest).filter (fun b => decide (b.height ≠ 0)) :=
      List.mem_filter.mpr ⟨hb, by simpa using hz⟩
    exact assocGet_applyPuts_mem _ _ _ _ (bmPuts_keys_nodup _ hnd)
      (List.mem_map_of_mem (fun b => (hhKey b.height b.hash, [])) hf)
  · -- (c) no MissingBlock write for height-0 entries
    intro b hb hz
    refine assocGet_applyPuts_notMem _ _ _ ?_
    rw [bmPuts_keys]
    simp only [List.mem_map, List.mem_filter, not_exists]
    rintro b' ⟨⟨hb', hz'⟩, hkey⟩
    have hz'' : b'.height ≠ 0 := by simpa using hz'
    exact hz'' (hhKey_height_inj b'.height 0 b'.hash b.hash
      (h64 b' hb') (by norm_num) hkey)
  · -- (d) the "last" sentinel holds the final header
    exact assocGet_put_self _ _ _
  · -- (e) BlockHeadersBest returns the final header
    simp [BlockHeadersBest, assocGet_put_self]

/-- Witness for C1: a genesis header plus one height-1 header against
the empty store. -/
theorem c1_witness :
    ∃ st', BlockHeadersInsert ⟨[], [], []⟩
        [⟨List.replicate 32 1, 0, [9]⟩, ⟨List.replicate 32 2, 1, [8]⟩] = .ok st' ∧
      (∀ b ∈ [(⟨List.replicate 32 1, 0, [9]⟩ : BlockHeader),
          ⟨List.replicate 32 2, 1, [8]⟩],
        assocGet st'.blockHeaders b.hash = some b) ∧
      (∀ b ∈ [(⟨List.replicate 32 1, 0, [9]⟩ : BlockHeader),
          ⟨List.replicate 32 2, 1, [8]⟩], b.height ≠ 0 →
        assocGet st'.blocksMissing (hhKey b.height b.hash) = some []) ∧
      (∀ b ∈ [(⟨List.replicate 32 1, 0, [9]⟩ : BlockHeader),
          ⟨List.replicate 32 2, 1, [8]⟩], b.height = 0 →
        assocGet st'.blocksMissing (hhKey 0 b.hash) =
          assocGet (⟨[], [], []⟩ : LdbState).blocksMissing (hhKey 0 b.hash)) ∧
      assocGet st'.blockHeaders bhsLastKey =
        some ([(⟨List.replicate 32 2, 1, [8]⟩ : BlockHeader)].getLastD
          ⟨List.replicate 32 1, 0, [9]⟩) ∧
      BlockHeadersBest st' =
        .ok [[(⟨List.replicate 32 2, 1, [8]⟩ : BlockHeader)].getLastD
          ⟨List.replicate 32 1, 0, [9]⟩] :=
  c1_blockHeadersInsert ⟨[], [], []⟩ ⟨List.replicate 32 1, 0, [9]⟩
    [⟨List.replicate 32 2, 1, [8]⟩] (by decide) (by decide) (by decide) (by decide)

/-- A successful header walk that stays below the `uint64` wrap covers
the whole batch and assigns consecutive heights starting at its
`height` argument. -/
theorem buildHeaders_lengths_heights (c : WireCodec) (msg : List WireHeader) :
    ∀ (pbh : WireHeader) (height : Nat) (built : List BlockHeader),
      height + msg.length ≤ 2 ^ 64 →
      buildHeaders c pbh height msg = some built →
      built.length = msg.length ∧
        ∀ i (hi : i < built.length), (built.get ⟨i, hi⟩).height = height + i := by
  induction msg with
  | nil =>
    intro pbh height built hbound hb
    simp only [buildHeaders, Option.some_inj] at hb
    subst hb
    exact ⟨rfl, fun i hi => absurd hi (by simp)⟩
  | cons h hs ih =>
    intro pbh height built hbound hb
    simp only [List.length_cons] at hbound
    simp only [buildHeaders] at hb
    by_cases hc : h.prevBlock = c.bHash pbh
    · rw [if_pos hc] at hb
      cases hrec : buildHeaders c h ((height + 1) % 2 ^ 64) hs with
      | none => rw [hrec] at hb; simp at hb
      | some built' =>
        rw [hrec] at hb
        simp only [Option.some_inj] at hb
        subst hb
        have hmod : (height + 1) % 2 ^ 64 + hs.length ≤ 2 ^ 64 := by
          by_cases he : height + 1 = 2 ^ 64
          · have hz : hs.length = 0 := by omega
            simp [he, hz]
          · rw [Nat.mod_eq_of_lt (by omega)]
            omega
        obtain ⟨hlen, hh⟩ := ih h ((height + 1) % 2 ^ 64) built' hmod hrec
        refine ⟨by simp [hlen], ?_⟩
        intro i hi
        cases i with
        | zero => simp
        | succ j =>
          have hj : j < built'.length := by simpa using hi
          have hlt : height + 1 < 2 ^ 64 := by
            rw [hlen] at hj
            omega
          have := hh j hj
          simp only [List.get_cons_succ]
          rw [this, Nat.mod_eq_of_lt hlt]
          omega
    · rw [if_neg hc] at hb
      simp at hb

/-- A batch that does not connect makes the header walk fail. -/
theorem buildHeaders_none_of_not_chainOk (c : WireCodec) (msg : List WireHeader) :
    ∀ (pbh : WireHeader) (height : Nat), ¬ chainOk c pbh msg →
      buildHeaders c pbh height msg = none := by
  induction msg with
  | nil => intro pbh height hno; exact absurd trivial hno
  | cons h hs ih =>
    intro pbh height hno
    simp only [chainOk, not_and_or] at hno
    simp only [buildHeaders]
    rcases hno with hno | hno
    · rw [if_neg hno]
    · by_cases hc : h.prevBlock = c.bHash pbh
      · rw [if_pos hc, ih h ((height + 1) % 2 ^ 64) hno]
      · rw [if_neg hc]

/-- C2: when `handleHeaders` receives a non-empty batch whose first
header's parent is stored at height `H`, with the batch's heights
staying below the `uint64` wrap (`H + batch length < 2^64`), (a) any
insert list the walk builds assigns height `H + 1 + i` to the `i`-th
header, and (b) any connectivity mismatch in the batch aborts the
handler before `BlockHeadersInsert` is called: the store comes back
unchanged with outcome `cannotConnect`, so no header of the batch is
persisted. -/
theorem c2_handleHeaders_heights_and_abort (c : WireCodec) (st : LdbState)
    (h0 : WireHeader) (hs : List WireHeader) (p : BlockHeader) (pbh : WireHeader)
    (H : Nat)
    (hget : assocGet st.blockHeaders h0.prevBlock = some p)
    (hdes : c.deser p.header = some pbh)
    (hH : p.height = H)
    (hbound : H + (h0 :: hs).length < 2 ^ 64) :
    (∀ built, buildHeaders c pbh ((H + 1) % 2 ^ 64) (h0 :: hs) = some built →
      built.length = (h0 :: hs).length ∧
        ∀ i (hi : i < built.length), (built.get ⟨i, hi⟩).height = H + 1 + i) ∧
    (¬ chainOk c pbh (h0 :: hs) →
      handleHeaders c st (h0 :: hs) = (st, .cannotConnect)) := by
  have hm : (H + 1) % 2 ^ 64 = H + 1 := by
    simp only [List.length_cons] at hbound
    exact Nat.mod_eq_of_lt (by omega)
  constructor
  · intro built hb
    rw [hm] at hb
    exact buildHeaders_lengths_heights c (h0 :: hs) pbh (H + 1) built
      (by simp only [List.length_cons] at hbound ⊢; omega) hb
  · intro hno
    simp only [handleHeaders, BlockHeaderByHash, hget, hdes, hH, hm,
      buildHeaders_none_of_not_chainOk c (h0 :: hs) pbh (H + 1) hno]

/-- Witness for C2: a toy codec (block hash = the serialised tail,
deserialisation splits at 32 bytes) with a two-header connecting batch
whose stored parent sits at height 4. -/
theorem c2_witness :
    (∀ built,
      buildHeaders
        ⟨fun h => h.rest, fun h => h.prevBlock ++ h.rest,
          fun l => some ⟨l.take 32, l.drop 32⟩⟩
        ⟨[5, 6], []⟩ ((4 + 1) % 2 ^ 64) [⟨[], [7]⟩, ⟨[7], [8]⟩] = some built →
      built.length = ([(⟨[], [7]⟩ : WireHeader), ⟨[7], [8]⟩]).length ∧
        ∀ i (hi : i < built.length), (built.get ⟨i, hi⟩).height = 4 + 1 + i) ∧
    (¬ chainOk
        ⟨fun h => h.rest, fun h => h.prevBlock ++ h.rest,
          fun l => some ⟨l.take 32, l.drop 32⟩⟩
        ⟨[5, 6], []⟩ [⟨[], [7]⟩, ⟨[7], [8]⟩] →
      handleHeaders
        ⟨fun h => h.rest, fun h => h.prevBlock ++ h.rest,
          fun l => some ⟨l.take 32, l.drop 32⟩⟩
        ⟨[([], ⟨[], 4, [5, 6]⟩)], [], []⟩ [⟨[], [7]⟩, ⟨[7], [8]⟩] =
        (⟨[([], ⟨[], 4, [5, 6]⟩)], [], []⟩, .cannotConnect)) :=
  c2_handleHeaders_heights_and_abort
    ⟨fun h => h.rest, fun h => h.prevBlock ++ h.rest,
      fun l => some ⟨l.take 32, l.drop 32⟩⟩
    ⟨[([], ⟨[], 4, [5, 6]⟩)], [], []⟩ ⟨[], [7]⟩ [⟨[7], [8]⟩]
    ⟨[], 4, [5, 6]⟩ ⟨[5, 6], []⟩ 4 rfl rfl rfl (by decide)

theorem lexLe_trans (a b c : List Nat) (hab : lexLe a b = true)
    (hbc : lexLe b c = true) : lexLe a c = true := by
  induction a generalizing b c with
  | nil => rfl
  | cons x xs ih =>
    cases b with
    | nil => simp [lexLe] at hab
    | cons y ys =>
      cases c with
      | nil => simp [lexLe] at hbc
      | cons z zs =>
        simp only [lexLe, Bool.or_eq_true, Bool.and_eq_true, beq_iff_eq,
          decide_eq_true_eq] at hab hbc ⊢
        rcases hab with h1 | ⟨h1, h1'⟩ <;> rcases hbc with h2 | ⟨h2, h2'⟩
        · exact Or.inl (by omega)
        · exact Or.inl (by omega)
        · exact Or.inl (by omega)
        · exact Or.inr ⟨by omega, ih ys zs h1' h2'⟩

theorem mem_insEntry {α : Type} (x e : List Nat × α) (l : List (List Nat × α)) :
    x ∈ insEntry e l ↔ x = e ∨ x ∈ l := by
  induction l with
  | nil => simp [insEntry]
  | cons f rest ih =>
    by_cases h : lexLe e.1 f.1
    · simp [insEntry, h, ih]
    · simp [insEntry, h, ih]
      tauto

theorem mem_sortEntries {α : Type} (x : List Nat × α) (l : List (List Nat × α)) :
    x ∈ sortEntries l ↔ x ∈ l := by
  induction l with
  | nil => simp [sortEntries]
  | cons e rest ih => simp [sortEntries, mem_insEntry, ih]

theorem pairwise_insEntry {α : Type} (e : List Nat × α) (l : List (List Nat × α))
    (hl : l.Pairwise (fun a b => lexLe a.1 b.1 = true)) :
    (insEntry e l).Pairwise (fun a b => lexLe a.1 b.1 = true) := by
  induction l with
  | nil => simp [insEntry]
  | cons f rest ih =>
    rcases List.pairwise_cons.mp hl with ⟨hf, hrest⟩
    by_cases h : lexLe e.1 f.1
    · rw [insEntry, if_pos h]
      refine List.pairwise_cons.mpr ⟨?_, hl⟩
      intro g hg
      rcases List.mem_cons.mp hg with hg | hg
      · rw [hg]; exact h
      · exact lexLe_trans _ _ _ h (hf g hg)
    · rw [insEntry, if_neg h]
      refine List.pairwise_cons.mpr ⟨?_, ih hrest⟩
      intro g hg
      rcases (mem_insEntry g e rest).mp hg with hg | hg
      · rw [hg]
        rcases lexLe_total e.1 f.1 with h' | h'
        · exact absurd h' h
        · exact h'
      · exact hf g hg

theorem pairwise_sortEntries {α : Type} (l : List (List Nat × α)) :
    (sortEntries l).Pairwise (fun a b => lexLe a.1 b.1 = true) := by
  induction l with
  | nil => simp [sortEntries]
  | cons e rest ih => exact pairwise_insEntry e (sortEntries rest) ih

/-- Keys `lexLe`-ordered and both decodable imply the decoded heights
are ordered: the height occupies the first 8 bytes of the key. -/
theorem keyToHeightHash_mono (k1 k2 : List Nat) (h1 h2 : Nat) (b1 b2 : List Nat)
    (hle : lexLe k1 k2 = true)
    (hv1 : ∀ x ∈ k1, x < 256) (hv2 : ∀ x ∈ k2, x < 256)
    (hd1 : keyToHeightHash k1 = .ok (h1, b1))
    (hd2 : keyToHeightHash k2 = .ok (h2, b2)) : h1 ≤ h2 := by
  simp only [keyToHeightHash] at hd1 hd2
  by_cases hl1 : k1.length = 8 + 1 + 32
  · by_cases hl2 : k2.length = 8 + 1 + 32
    · rw [if_pos hl1] at hd1
      rw [if_pos hl2] at hd2
      simp only [Except.ok.injEq, Prod.mk.injEq] at hd1 hd2
      have htake : lexLe (k1.take 8) (k2.take 8) = true := by
        refine lexLe_append_of_prefixes (k1.take 8) (k2.take 8)
          (k1.drop 8) (k2.drop 8) ?_ ?_
        · rw [List.length_take, List.length_take, hl1, hl2]
        · rw [List.take_append_drop, List.take_append_drop]
          exact hle
      have := beDec_mono (k1.take 8) (k2.take 8)
        (by rw [List.length_take, List.length_take, hl1, hl2])
        htake
        (fun x hx => hv1 x (List.take_subset 8 k1 hx))
        (fun x hx => hv2 x (List.take_subset 8 k2 hx))
      omega
    · rw [if_neg hl2] at hd2; simp at hd2
  · rw [if_neg hl1] at hd1; simp at hd1

/-- Every identifier produced by the `BlocksMissing` iterator loop
decodes some entry of the namespace slice it walked. -/
theorem bmLoop_mem (entries : List (List Nat × List Nat)) :
    ∀ (x count : Int) (bis : List BlockIdentifier),
      bmLoop entries x count = .ok bis → ∀ bi ∈ bis,
        ∃ kv ∈ entries, keyToHeightHash kv.1 = .ok (bi.height, bi.hash) := by
  induction entries with
  | nil =>
    intro x count bis hb bi hbi
    simp only [bmLoop, Except.ok.injEq] at hb
    subst hb
    simp at hbi
  | cons kv rest ih =>
    intro x count bis hb bi hbi
    obtain ⟨k, v⟩ := kv
    simp only [bmLoop] at hb
    cases hd : keyToHeightHash k with
    | error e => rw [hd] at hb; simp at hb
    | ok hv' =>
      obtain ⟨h, hs⟩ := hv'
      rw [hd] at hb
      simp only at hb
      by_cases hcnt : x + 1 ≥ count
      · rw [if_pos hcnt] at hb
        simp only [Except.ok.injEq] at hb
        subst hb
        simp only [List.mem_singleton] at hbi
        subst hbi
        exact ⟨(k, v), List.mem_cons_self _ _, hd⟩
      · rw [if_neg hcnt] at hb
        cases hrec : bmLoop rest (x + 1) count with
        | error e => rw [hrec] at hb; simp at hb
        | ok bis' =>
          rw [hrec] at hb
          simp only [Except.ok.injEq] at hb
          subst hb
          rcases List.mem_cons.mp hbi with hbi | hbi
          · subst hbi
            exact ⟨(k, v), List.mem_cons_self _ _, hd⟩
          · obtain ⟨kv', hkv', hdec⟩ := ih (x + 1) count bis' hrec bi hbi
            exact ⟨kv', List.mem_cons_of_mem _ hkv', hdec⟩

/-- The loop keeps the height order of its lexLe-sorted input. -/
theorem bmLoop_heights_sorted (entries : List (List Nat × List Nat)) :
    ∀ (x count : Int) (bis : List BlockIdentifier),
      entries.Pairwise (fun a b => lexLe a.1 b.1 = true) →
      (∀ kv ∈ entries, ∀ y ∈ kv.1, y < 256) →
      bmLoop entries x count = .ok bis →
      bis.Pairwise (fun a b => a.height ≤ b.height) := by
  induction entries with
  | nil =>
    intro x count bis hp hv hb
    simp only [bmLoop, Except.ok.injEq] at hb
    subst hb
    simp
  | cons kv rest ih =>
    intro x count bis hp hv hb
    obtain ⟨k, v⟩ := kv
    simp only [bmLoop] at hb
    cases hd : keyToHeightHash k with
    | error e => rw [hd] at hb; simp at hb
    | ok hv' =>
      obtain ⟨h, hs⟩ := hv'
      rw [hd] at hb
      simp only at hb
      by_cases hcnt : x + 1 ≥ count
      · rw [if_pos hcnt] at hb
        simp only [Except.ok.injEq] at hb
        subst hb
        simp
      · rw [if_neg hcnt] at hb
        cases hrec : bmLoop rest (x + 1) count with
        | error e => rw [hrec] at hb; simp at hb
        | ok bis' =>
          rw [hrec] at hb
          simp only [Except.ok.injEq] at hb
          subst hb
          rcases List.pairwise_cons.mp hp with ⟨hk, hrest⟩
          refine List.pairwise_cons.mpr ⟨?_, ?_⟩
          · intro bi hbi
            obtain ⟨kv', hkv', hdec⟩ := bmLoop_mem rest (x + 1) count bis' hrec bi hbi
            exact keyToHeightHash_mono k kv'.1 h bi.height hs bi.hash
              (hk kv' hkv')
              (hv (k, v) (List.mem_cons_self _ _))
              (hv kv' (List.mem_cons_of_mem _ hkv'))
              hd hdec
          · exact ih (x + 1) count bis' hrest
              (fun kv' hkv' => hv kv' (List.mem_cons_of_mem _ hkv')) hrec

/-- C6: `heightHashToKey` is strictly monotone in height — a smaller
height gives a lexicographically smaller key whatever the hashes — and
consequently `BlocksMissing`, which walks the namespace in key order,
returns identifiers in non-decreasing height order. -/
theorem c6_missing_keys_height_ordered :
    (∀ (h1 h2 : Nat) (b1 b2 : List Nat), h1 < h2 → h2 < 2 ^ 64 →
      b1.length = 32 → b2.length = 32 →
      lexLt (hhKey h1 b1) (hhKey h2 b2) = true) ∧
    (∀ (st : LdbState) (count : Int) (bis : List BlockIdentifier),
      (∀ kv ∈ st.blocksMissing, ∀ y ∈ kv.1, y < 256) →
      BlocksMissing st count = .ok bis →
      bis.Pairwise (fun a b => a.height ≤ b.height)) := by
  constructor
  · intro h1 h2 b1 b2 hlt h64 hb1 hb2
    have hne : beUint64 h1 ≠ beUint64 h2 := by
      intro he
      have e1 := beDec_beUint64 h1 (by omega)
      rw [he, beDec_beUint64 h2 h64] at e1
      omega
    have hkey : lexLt (beUint64 h1) (beUint64 h2) = true := by
      rcases lexLt_trichotomy (beUint64 h1) (beUint64 h2) (by simp [beUint64]) with
        h | h | h
      · exact absurd h hne
      · exact h
      · have := beDec_strictMono (beUint64 h2) (beUint64 h1) (by simp [beUint64]) h
          (beUint64_bytes_lt h2) (beUint64_bytes_lt h1)
        rw [beDec_beUint64 h1 (by omega), beDec_beUint64 h2 h64] at this
        omega
    have h9 : lexLt (beUint64 h1 ++ [0]) (beUint64 h2 ++ [0]) = true :=
      lexLt_append _ _ _ _ (by simp [beUint64]) hkey
    exact lexLt_append _ _ b1 b2 (by simp [beUint64]) h9
  · intro st count bis hv hok
    by_cases hneg : count < 0
    · simp [BlocksMissing, hneg] at hok
    · rw [BlocksMissing, if_neg hneg] at hok
      exact bmLoop_heights_sorted (sortEntries st.blocksMissing) 0 count bis
        (pairwise_sortEntries st.blocksMissing)
        (fun kv hkv => hv kv ((mem_sortEntries kv st.blocksMissing).mp hkv))
        hok

/-- Witness for C6: keys at heights 1 < 2, and a two-entry namespace
inserted out of height order comes back sorted. -/
theorem c6_witness :
    lexLt (hhKey 1 (List.replicate 32 9)) (hhKey 2 (List.replicate 32 0)) = true ∧
    ([⟨1, List.replicate 32 1⟩, ⟨2, List.replicate 32 2⟩] :
      List BlockIdentifier).Pairwise (fun a b => a.height ≤ b.height) :=
  ⟨c6_missing_keys_height_ordered.1 1 2 (List.replicate 32 9) (List.replicate 32 0)
      (by decide) (by decide) (by decide) (by decide),
    c6_missing_keys_height_ordered.2
      ⟨[], [(hhKey 2 (List.replicate 32 2), []), (hhKey 1 (List.replicate 32 1), [])], []⟩
      5 [⟨1, List.replicate 32 1⟩, ⟨2, List.replicate 32 2⟩]
      (by decide) rfl⟩

/-- C7 counterexample: `BlocksMissing` with limit 0 on a one-entry
namespace returns that entry, not no entries — the loop's break test
`x >= count` runs only after the first append. -/
theorem c7_counterexample :
    BlocksMissing ⟨[], [(hhKey 1 (List.replicate 32 1), [])], []⟩ 0 =
      .ok [⟨1, List.replicate 32 1⟩] := rfl

/-- The `BlocksMissing` loop returns exactly the first
`max(count - x, 1)`-many decoded entries while the counter stays below
`count`. -/
theorem bmLoop_take (entries : List (List Nat × List Nat)) :
    ∀ (x count : Int) (bis : List BlockIdentifier), 0 ≤ x → x + 1 ≤ count →
      bmLoop entries x count = .ok bis →
      bis = (entries.take (count - x).toNat).map
        (fun kv => ⟨beDec (kv.1.take 8), kv.1.drop 9⟩) := by
  induction entries with
  | nil =>
    intro x count bis hx hxc hb
    simp only [bmLoop, Except.ok.injEq] at hb
    subst hb
    simp
  | cons kv rest ih =>
    intro x count bis hx hxc hb
    obtain ⟨k, v⟩ := kv
    simp only [bmLoop] at hb
    cases hd : keyToHeightHash k with
    | error e => rw [hd] at hb; simp at hb
    | ok hv' =>
      obtain ⟨h, hs⟩ := hv'
      rw [hd] at hb
      simp only at hb
      have hdec : h = beDec (k.take 8) ∧ hs = k.drop 9 := by
        simp only [keyToHeightHash] at hd
        by_cases hl : k.length = 8 + 1 + 32
        · rw [if_pos hl] at hd
          simp only [Except.ok.injEq, Prod.mk.injEq] at hd
          exact ⟨hd.1.symm, hd.2.symm⟩
        · rw [if_neg hl] at hd; simp at hd
      by_cases hcnt : x + 1 ≥ count
      · rw [if_pos hcnt] at hb
        simp only [Except.ok.injEq] at hb
        subst hb
        have h1 : (count - x).toNat = 1 := by omega
        rw [h1]
        simp [hdec.1, hdec.2]
      · rw [if_neg hcnt] at hb
        cases hrec : bmLoop rest (x + 1) count with
        | error e => rw [hrec] at hb; simp at hb
        | ok bis' =>
          rw [hrec] at hb
          simp only [Except.ok.injEq] at hb
          subst hb
          have h1 : (count - x).toNat = (count - (x + 1)).toNat + 1 := by omega
          rw [h1, List.take_succ_cons, List.map_cons,
            ih (x + 1) count bis' (by omega) (by omega) hrec]
          simp [hdec.1, hdec.2]

/-- The sort underlying iteration preserves emptiness. -/
theorem sortEntries_eq_nil_iff {α : Type} (l : List (List Nat × α)) :
    sortEntries l = [] ↔ l = [] := by
  cases l with
  | nil => simp [sortEntries]
  | cons e rest =>
    simp only [sortEntries]
    constructor
    · intro h
      have : e ∈ insEntry e (sortEntries rest) := (mem_insEntry e e _).mpr (Or.inl rfl)
      rw [h] at this
      simp at this
    · intro h
      simp at h

/-- C7 (amended): for every limit ≥ 1, `BlocksMissing(limit)` returns at
most `limit` pairs, namely the decodings of the first `limit` entries of
a forward (key-ordered) iteration; but for limit = 0 it returns one
entry whenever the namespace is non-empty (none only when it is empty),
and a negative limit panics on the slice allocation. -/
theorem c7_blocksMissing_limit :
    (∀ (st : LdbState) (count : Int) (bis : List BlockIdentifier), 1 ≤ count →
      BlocksMissing st count = .ok bis →
      bis = ((sortEntries st.blocksMissing).take count.toNat).map
          (fun kv => ⟨beDec (kv.1.take 8), kv.1.drop 9⟩) ∧
        (bis.length : Int) ≤ count) ∧
    (∀ (st : LdbState) (bis : List BlockIdentifier),
      BlocksMissing st 0 = .ok bis →
      (st.blocksMissing = [] → bis = []) ∧
      (st.blocksMissing ≠ [] → bis.length = 1)) ∧
    (∀ (st : LdbState) (count : Int), count < 0 →
      BlocksMissing st count = .error .panicked) := by
  refine ⟨?_, ?_, ?_⟩
  · intro st count bis hc hok
    rw [BlocksMissing, if_neg (by omega)] at hok
    have heq := bmLoop_take (sortEntries st.blocksMissing) 0 count bis
      (by omega) (by omega) hok
    have h0 : count - 0 = count := by omega
    rw [h0] at heq
    refine ⟨heq, ?_⟩
    rw [heq, List.length_map, List.length_take]
    have : min count.toNat (sortEntries st.blocksMissing).length ≤ count.toNat :=
      Nat.min_le_left _ _
    omega
  · intro st bis hok
    rw [BlocksMissing, if_neg (by omega)] at hok
    constructor
    · intro hnil
      rw [(sortEntries_eq_nil_iff st.blocksMissing).mpr hnil] at hok
      simp only [bmLoop, Except.ok.injEq] at hok
      exact hok.symm
    · intro hne
      cases hsort : sortEntries st.blocksMissing with
      | nil => exact absurd ((sortEntries_eq_nil_iff st.blocksMissing).mp hsort) hne
      | cons e rest =>
        rw [hsort] at hok
        obtain ⟨k, v⟩ := e
        simp only [bmLoop] at hok
        cases hd : keyToHeightHash k with
        | error e' => rw [hd] at hok; simp at hok
        | ok hv' =>
          obtain ⟨h, hs⟩ := hv'
          rw [hd] at hok
          simp only at hok
          have hge : (0 : Int) + 1 ≥ 0 := by omega
          rw [if_pos hge] at hok
          simp only [Except.ok.injEq] at hok
          rw [← hok]
          rfl
  · intro st count hc
    rw [BlocksMissing, if_pos hc]

/-- Witness for C7: limit 2 over a three-entry namespace yields the two
lowest keys; limit 0 over a one-entry namespace yields one entry;
limit −3 panics. -/
theorem c7_witness :
    ([⟨1, List.replicate 32 1⟩, ⟨2, List.replicate 32 2⟩] :
        List BlockIdentifier) =
      ((sortEntries ([(hhKey 3 (List.replicate 32 3), []),
          (hhKey 2 (List.replicate 32 2), []),
          (hhKey 1 (List.replicate 32 1), [])] :
            List (List Nat × List Nat))).take (2 : Int).toNat).map
        (fun kv => ⟨beDec (kv.1.take 8), kv.1.drop 9⟩) ∧
    (([⟨1, List.replicate 32 1⟩, ⟨2, List.replicate 32 2⟩] :
      List BlockIdentifier).length : Int) ≤ 2 :=
  c7_blocksMissing_limit.1
    ⟨[], [(hhKey 3 (List.replicate 32 3), []),
      (hhKey 2 (List.replicate 32 2), []),
      (hhKey 1 (List.replicate 32 1), [])], []⟩
    2 [⟨1, List.replicate 32 1⟩, ⟨2, List.replicate 32 2⟩]
    (by decide) rfl

/-- A successful `blockPeerAdd` grows the pending map by exactly one
entry and leaves the peer map alone. -/
theorem blockPeerAdd_ok_length (st : SchedState) (now : Nat) (hash : List Nat)
    (addr : String) (st' : SchedState)
    (h : blockPeerAdd st now hash addr = .ok st') :
    st'.blocks.length = st.blocks.length + 1 ∧ st'.peers = st.peers := by
  simp only [blockPeerAdd] at h
  by_cases h1 : (assocGet st.peers addr).isNone
  · rw [if_pos h1] at h
    simp at h
  · rw [if_neg h1] at h
    by_cases h2 : (assocGet st.blocks hash).isSome
    · rw [if_pos h2] at h; simp at h
    · rw [if_neg h2] at h
      simp only [Except.ok.injEq] at h
      subst h
      refine ⟨?_, rfl⟩
      exact assocPut_length_of_absent _ _ _ (Option.not_isSome_iff_eq_none.mp h2)

/-- A successful pass of the `randPeerWrite` peer loop grows the
pending map by exactly one entry and leaves the peer map alone. -/
theorem randPeerWriteLoop_ok_length (st : SchedState) (now : Nat) (hash : List Nat)
    (ps : List (String × Bool)) (st' : SchedState) (pk : String)
    (h : randPeerWriteLoop st now hash ps = .ok (st', pk)) :
    st'.blocks.length = st.blocks.length + 1 ∧ st'.peers = st.peers := by
  induction ps with
  | nil => simp [randPeerWriteLoop] at h
  | cons p rest ih =>
    obtain ⟨addr, conn⟩ := p
    simp only [randPeerWriteLoop] at h
    by_cases hc : conn = true
    · rw [if_pos hc] at h
      cases ha : blockPeerAdd st now hash addr with
      | error e => rw [ha] at h; exact ih h
      | ok stB =>
        rw [ha] at h
        simp only [Except.ok.injEq, Prod.mk.injEq] at h
        obtain ⟨h1, h2⟩ := h
        subst h1
        exact blockPeerAdd_ok_length st now hash addr _ ha
    · rw [if_neg hc] at h
      exact ih h

/-- C8: the pending-blocks map respects the `defaultPendingBlocks`
(128) bound in every reachable scheduler state: `randPeerWrite`, the
only writer, refuses with `CacheFull` when the map holds 128 or more
entries and otherwise adds exactly one entry; the expiry sweep and the
`handleBlock` deletion only remove entries; peer-map updates leave the
pending map alone; hence `|pending| ≤ 128` is an invariant from the
empty initial state. -/
theorem c8_pending_bound :
    (∀ st, SchedReachable st → st.blocks.length ≤ defaultPendingBlocks) ∧
    (∀ (st : SchedState) (now : Nat) (hash : List Nat),
      st.blocks.length ≥ defaultPendingBlocks →
      randPeerWrite st now hash = .error .cacheFull) ∧
    (∀ (st : SchedState) (now : Nat) (hash : List Nat) (st' : SchedState)
      (pk : String), randPeerWrite st now hash = .ok (st', pk) →
      st'.blocks.length = st.blocks.length + 1 ∧
        st.blocks.length < defaultPendingBlocks) ∧
    (∀ (st : SchedState) (now : Nat),
      (blockPeerExpire st now).1.blocks.length ≤ st.blocks.length) ∧
    (∀ (st : SchedState) (hash : List Nat),
      (handleBlockRemove st hash).blocks.length ≤ st.blocks.length) := by
  have hfull : ∀ (st : SchedState) (now : Nat) (hash : List Nat),
      st.blocks.length ≥ defaultPendingBlocks →
      randPeerWrite st now hash = .error .cacheFull := by
    intro st now hash hge
    rw [randPeerWrite, if_pos hge]
  have hwrite : ∀ (st : SchedState) (now : Nat) (hash : List Nat) (st' : SchedState)
      (pk : String), randPeerWrite st now hash = .ok (st', pk) →
      st'.blocks.length = st.blocks.length + 1 ∧
        st.blocks.length < defaultPendingBlocks := by
    intro st now hash st' pk h
    rw [randPeerWrite] at h
    by_cases hge : st.blocks.length ≥ defaultPendingBlocks
    · rw [if_pos hge] at h; simp at h
    · rw [if_neg hge] at h
      exact ⟨(randPeerWriteLoop_ok_length st now hash st.peers st' pk h).1,
        by omega⟩
  have hexp : ∀ (st : SchedState) (now : Nat),
      (blockPeerExpire st now).1.blocks.length ≤ st.blocks.length := by
    intro st now
    simpa [blockPeerExpire] using List.length_filter_le _ st.blocks
  have hrem : ∀ (st : SchedState) (hash : List Nat),
      (handleBlockRemove st hash).blocks.length ≤ st.blocks.length := by
    intro st hash
    simpa [handleBlockRemove] using assocDel_length_le st.blocks hash
  refine ⟨?_, hfull, hwrite, hexp, hrem⟩
  intro st hreach
  induction hreach with
  | init => simp [defaultPendingBlocks]
  | step hr hs ih =>
    cases hs with
    | write now hash stW pk h =>
      have := hwrite _ now hash _ pk h
      omega
    | expire now => exact le_trans (hexp _ now) ih
    | blockRemove hash => exact le_trans (hrem _ hash) ih
    | peerAdd addr conn => simpa using ih
    | peerDelete addr => simpa using ih

/-- Witness for C8: the bound at the initial state, `CacheFull` at a
concrete 128-entry pending map, and a successful write from a 127-entry
map growing it to 128. -/
theorem c8_witness :
    (⟨[], []⟩ : SchedState).blocks.length ≤ defaultPendingBlocks ∧
    randPeerWrite
      ⟨[("a", true)], (List.range 128).map (fun i => ([i], ⟨0, "a"⟩))⟩ 5 [200] =
      .error .cacheFull ∧
    (blockPeerExpire (⟨[], [([3], ⟨1, "a"⟩)]⟩ : SchedState) 9).1.blocks.length ≤
      (⟨[], [([3], ⟨1, "a"⟩)]⟩ : SchedState).blocks.length :=
  ⟨c8_pending_bound.1 ⟨[], []⟩ SchedReachable.init,
    c8_pending_bound.2.1
      ⟨[("a", true)], (List.range 128).map (fun i => ([i], ⟨0, "a"⟩))⟩ 5 [200]
      (by simp [defaultPendingBlocks]),
    c8_pending_bound.2.2.2.1 ⟨[], [([3], ⟨1, "a"⟩)]⟩ 9⟩
